import Mathlib

/-!
Shallow embedding of the concurrency primitives of the `m-ordering`
repository and proofs about them.

Embedded components:

* `src/main5.rs` — `VersionedValue` (a `(value, version)` pair of `u32`s
  bit-packed into a `u64`) and `VersionedAtomicCounter` (an `AtomicU64`
  cell holding a packed pair, with `load`, `store` and
  `compare_exchange_versioned`).
* `src/main11.rs` — `SpinLock` (an `AtomicBool` flag with `lock`,
  `try_lock` and `unlock`).

Machine integers are modelled as `Nat` with explicit `% 2 ^ w` at the
points where the Rust code can overflow or truncate; `u32`-typed inputs
are constrained by `< 2 ^ 32` hypotheses.  The atomic cell is modelled by
explicit state passing: each mutating operation returns its result
together with the new cell state.  `compare_exchange_weak` on the
`AtomicBool` is given an explicit `spurious` parameter, because the Rust
operation is permitted to fail spuriously even when the comparison
succeeds.  Interleaved executions of several threads are modelled by a
step function driven by an arbitrary schedule.
-/

/-! ## `VersionedValue` (src/main5.rs, lines 7–29) -/

/-- The `(value, version)` pair; both fields are `u32` in the source. -/
structure VersionedValue where
  value : Nat
  version : Nat
deriving DecidableEq, Repr

/-- Field widths of the source type: both fields fit in 32 bits. -/
def VersionedValue.wf (v : VersionedValue) : Prop :=
  v.value < 2 ^ 32 ∧ v.version < 2 ^ 32

instance (v : VersionedValue) : Decidable v.wf := by
  unfold VersionedValue.wf; infer_instance

/-- `VersionedValue::new` (line 14). -/
def VersionedValue.new (value version : Nat) : VersionedValue :=
  ⟨value, version⟩

/-- `VersionedValue::pack` (lines 19–21): `(version as u64) << 32 | (value as u64)`. -/
def VersionedValue.pack (self : VersionedValue) : Nat :=
  (self.version <<< 32) ||| self.value

/-- `VersionedValue::unpack` (lines 24–28): `version = (packed >> 32) as u32`,
`value = (packed & 0xFFFFFFFF) as u32`.  The `as u32` casts truncate to 32 bits. -/
def VersionedValue.unpack (packed : Nat) : VersionedValue :=
  ⟨packed &&& 0xFFFFFFFF, (packed >>> 32) % 2 ^ 32⟩

/-! ## `VersionedAtomicCounter` (src/main5.rs, lines 31–77)

The `AtomicU64` field `data` is modelled as a `Nat` (always `< 2 ^ 64`
for reachable states); mutation is explicit state passing. -/

structure VersionedAtomicCounter where
  data : Nat
deriving DecidableEq, Repr

/-- Reachable cell states hold a packed `u64`. -/
def VersionedAtomicCounter.wf (self : VersionedAtomicCounter) : Prop :=
  self.data < 2 ^ 64

instance (c : VersionedAtomicCounter) : Decidable c.wf := by
  unfold VersionedAtomicCounter.wf; infer_instance

/-- `VersionedAtomicCounter::new` (lines 37–42): packs `(initial_value, 0)`. -/
def VersionedAtomicCounter.new (initial_value : Nat) : VersionedAtomicCounter :=
  ⟨(VersionedValue.new initial_value 0).pack⟩

/-- `VersionedAtomicCounter::load` (lines 45–48). -/
def VersionedAtomicCounter.load (self : VersionedAtomicCounter) : VersionedValue :=
  VersionedValue.unpack self.data

/-- `VersionedAtomicCounter::compare_exchange_versioned` (lines 51–68):
a single strong CAS on the packed word; returns `Except.ok new_value` and
installs `new_value` on success, `Except.error` of the unpacked actual
word (cell unchanged) on failure. -/
def VersionedAtomicCounter.compare_exchange_versioned
    (self : VersionedAtomicCounter) (expected new_value : VersionedValue) :
    Except VersionedValue VersionedValue × VersionedAtomicCounter :=
  let expected_packed := expected.pack
  let new_packed := new_value.pack
  if self.data = expected_packed then
    (Except.ok new_value, ⟨new_packed⟩)
  else
    (Except.error (VersionedValue.unpack self.data), self)

instance {e a : Type} [DecidableEq e] [DecidableEq a] : DecidableEq (Except e a) := by
  intro x y
  cases x with
  | ok v =>
    cases y with
    | ok w =>
      by_cases h : v = w
      · exact isTrue (by rw [h])
      · exact isFalse (by intro hc; injection hc; contradiction)
    | error w => exact isFalse (by intro hc; cases hc)
  | error v =>
    cases y with
    | ok w => exact isFalse (by intro hc; cases hc)
    | error w =>
      by_cases h : v = w
      · exact isTrue (by rw [h])
      · exact isFalse (by intro hc; injection hc; contradiction)

/-- `VersionedAtomicCounter::store` (lines 71–76): reads the current pair,
then writes `(value, current.version + 1)`.  The `+ 1` is unchecked `u32`
arithmetic; its release-mode wraparound is the explicit `% 2 ^ 32`. -/
def VersionedAtomicCounter.store (self : VersionedAtomicCounter) (value : Nat) :
    VersionedValue × VersionedAtomicCounter :=
  let current := self.load
  let new_value := VersionedValue.new value ((current.version + 1) % 2 ^ 32)
  (new_value, ⟨new_value.pack⟩)

/-! ## `SpinLock` (src/main11.rs, lines 10–58)

The `AtomicBool` flag is a `Bool`; mutation is explicit state passing.
`compare_exchange_weak` takes an explicit `spurious` flag: the Rust
operation may fail spuriously even when the comparison succeeds. -/

/-- Weak CAS on an atomic boolean: given the current flag, the expected
and new values, and whether this attempt fails spuriously, return the
`Result` (`ok`/`error` carry the previous value, as in Rust) and the new
flag. -/
def AtomicBool.compare_exchange_weak (current expected new spurious : Bool) :
    Except Bool Bool × Bool :=
  if current = expected ∧ spurious = false then (Except.ok current, new)
  else (Except.error current, current)

structure SpinLock where
  locked : Bool
deriving DecidableEq, Repr

/-- `SpinLock::new` (lines 16–20). -/
def SpinLock.new : SpinLock :=
  ⟨false⟩

/-- `SpinLock::try_lock` (lines 50–57): one `compare_exchange_weak(false, true)`
attempt; returns `is_ok()` of the result. -/
def SpinLock.try_lock (self : SpinLock) (spurious : Bool) : Bool × SpinLock :=
  let r := AtomicBool.compare_exchange_weak self.locked false true spurious
  (r.1.isOk, ⟨r.2⟩)

/-- `SpinLock::unlock` (lines 45–47): unconditional `store(false)`. -/
def SpinLock.unlock (self : SpinLock) : SpinLock :=
  ⟨false⟩

/-! ## Update traces on one `VersionedAtomicCounter` (for the version
monotonicity claim)

An operation is either a `store` or a `compare_exchange_versioned` with
caller-chosen `expected`/`desired` arguments.  `exec` runs a schedule of
operations; `mutCount` counts the successful mutations (every `store`,
and each CAS that succeeds in the state it actually executes in). -/

inductive CounterOp where
  | storeOp (value : Nat)
  | casOp (expected desired : VersionedValue)
deriving DecidableEq, Repr

/-- The cell state after executing one operation. -/
def CounterOp.apply (c : VersionedAtomicCounter) : CounterOp → VersionedAtomicCounter
  | .storeOp v => (c.store v).2
  | .casOp e d => (c.compare_exchange_versioned e d).2

/-- Whether one operation, executed in state `c`, is a successful mutation. -/
def CounterOp.succeeds (c : VersionedAtomicCounter) : CounterOp → Bool
  | .storeOp _ => true
  | .casOp e d => (c.compare_exchange_versioned e d).1.isOk

def execOps (c : VersionedAtomicCounter) : List CounterOp → VersionedAtomicCounter
  | [] => c
  | op :: ops => execOps (op.apply c) ops

def mutCount (c : VersionedAtomicCounter) : List CounterOp → Nat
  | [] => 0
  | op :: ops => (if op.succeeds c then 1 else 0) + mutCount (op.apply c) ops

/-- Arguments of an operation are `u32`-typed in the source. -/
def CounterOp.wf : CounterOp → Prop
  | .storeOp v => v < 2 ^ 32
  | .casOp e d => e.wf ∧ d.wf

/-- The version discipline the demonstration code follows on every CAS
call: the desired version is the expected version plus one. -/
def CounterOp.versionDisciplined : CounterOp → Prop
  | .storeOp _ => True
  | .casOp e d => d.version = e.version + 1

/-! ## Interleaved executions of the spinlock stress test
(src/main11.rs, lines 61–110)

Each of `n` workers repeats `K` times: acquire the lock, read the shared
non-atomic counter, write back the read value plus one, release the lock.
`SpinLock::lock` is a loop of weak-CAS acquisition attempts interleaved
with relaxed spin reads; in the interleaving model every scheduled
attempt either succeeds (the CAS wins) or leaves the state unchanged (the
flag was held, the CAS lost the race, or the weak CAS failed spuriously —
the thread keeps spinning).  A schedule entry `(t, go)` schedules worker
`t`; `go = false` makes an acquisition attempt fail spuriously. -/

inductive WorkerPhase where
  | spinning
  | reading
  | writing (tmp : Nat)
  | releasing
deriving DecidableEq, Repr

structure Worker where
  rem : Nat
  phase : WorkerPhase
deriving DecidableEq, Repr

/-- A worker holds the lock from a successful acquisition to the `unlock`. -/
def Worker.holdsLock (w : Worker) : Bool :=
  match w.phase with
  | WorkerPhase.spinning => false
  | _ => true

/-- Finished increments of one worker out of its `K` iterations. -/
def Worker.completed (K : Nat) (w : Worker) : Nat :=
  (K - w.rem) + (match w.phase with | WorkerPhase.releasing => 1 | _ => 0)

structure SysState (n : Nat) where
  lock : SpinLock
  counter : Nat
  workers : Fin n → Worker

/-- One scheduled step of worker `a.1` (with acquisition-success flag `a.2`). -/
def sysStep {n : Nat} (s : SysState n) (a : Fin n × Bool) : SysState n :=
  let w := s.workers a.1
  match w.phase with
  | WorkerPhase.spinning =>
      if w.rem = 0 then s
      else
        let r := s.lock.try_lock (!a.2)
        if r.1 then
          ⟨r.2, s.counter, Function.update s.workers a.1 ⟨w.rem, WorkerPhase.reading⟩⟩
        else
          ⟨r.2, s.counter, s.workers⟩
  | WorkerPhase.reading =>
      ⟨s.lock, s.counter, Function.update s.workers a.1 ⟨w.rem, WorkerPhase.writing s.counter⟩⟩
  | WorkerPhase.writing tmp =>
      ⟨s.lock, tmp + 1, Function.update s.workers a.1 ⟨w.rem, WorkerPhase.releasing⟩⟩
  | WorkerPhase.releasing =>
      ⟨s.lock.unlock, s.counter, Function.update s.workers a.1 ⟨w.rem - 1, WorkerPhase.spinning⟩⟩

def sysRun {n : Nat} (s : SysState n) (tr : List (Fin n × Bool)) : SysState n :=
  tr.foldl sysStep s

def initState (n K : Nat) : SysState n :=
  ⟨SpinLock.new, 0, fun _ => ⟨K, WorkerPhase.spinning⟩⟩

/-- The inductive invariant of the stress test: the flag is up exactly
while somebody is in the critical section, at most one worker is there,
the counter equals the total number of finished increments, and the
worker in the `writing` phase read the current counter. -/
def SysInv (K : Nat) {n : Nat} (s : SysState n) : Prop :=
  (s.lock.locked = false → ∀ t, (s.workers t).holdsLock = false) ∧
  (∀ t u, (s.workers t).holdsLock = true → (s.workers u).holdsLock = true → t = u) ∧
  (s.counter = ∑ t, Worker.completed K (s.workers t)) ∧
  (∀ t, (s.workers t).rem ≤ K) ∧
  (∀ t, (s.workers t).holdsLock = true → 1 ≤ (s.workers t).rem) ∧
  (∀ t tmp, (s.workers t).phase = WorkerPhase.writing tmp → tmp = s.counter)

instance : ∀ op : CounterOp, Decidable op.wf := by
  intro op
  cases op <;> (unfold CounterOp.wf; infer_instance)

instance : ∀ op : CounterOp, Decidable op.versionDisciplined := by
  intro op
  cases op <;> (unfold CounterOp.versionDisciplined; infer_instance)

theorem VersionedValue.pack_eq (v : VersionedValue) (h : v.value < 2 ^ 32) :
    v.pack = v.version * 2 ^ 32 + v.value := by
  unfold pack
  rw [Nat.shiftLeft_eq, Nat.mul_comm v.version (2 ^ 32), ← Nat.mul_add_lt_is_or h v.version]

theorem VersionedValue.unpack_eq (packed : Nat) :
    VersionedValue.unpack packed = ⟨packed % 2 ^ 32, packed / 2 ^ 32 % 2 ^ 32⟩ := by
  unfold unpack
  have h1 : (0xFFFFFFFF : Nat) = 2 ^ 32 - 1 := by norm_num
  rw [h1, Nat.and_pow_two_sub_one_eq_mod, Nat.shiftRight_eq_div_pow]

theorem VersionedValue.unpack_wf (packed : Nat) : (VersionedValue.unpack packed).wf := by
  rw [unpack_eq]
  exact ⟨Nat.mod_lt _ (by norm_num), Nat.mod_lt _ (by norm_num)⟩

theorem VersionedValue.unpack_pack (v : VersionedValue) (h : v.wf) :
    VersionedValue.unpack v.pack = v := by
  obtain ⟨hval, hver⟩ := h
  rw [unpack_eq, pack_eq v hval]
  have h1 : (v.version * 2 ^ 32 + v.value) % 2 ^ 32 = v.value := by
    rw [Nat.add_comm, Nat.add_mul_mod_self_right, Nat.mod_eq_of_lt hval]
  have h2 : (v.version * 2 ^ 32 + v.value) / 2 ^ 32 = v.version := by
    rw [Nat.mul_comm, Nat.mul_add_div (show 0 < 2 ^ 32 by norm_num),
      Nat.div_eq_of_lt hval, Nat.add_zero]
  rw [h1, h2, Nat.mod_eq_of_lt hver]

theorem VersionedValue.pack_lt (v : VersionedValue) (h : v.wf) : v.pack < 2 ^ 64 := by
  rw [pack_eq v h.1]
  have := h.1
  have := h.2
  have hv : v.version * 2 ^ 32 ≤ (2 ^ 32 - 1) * 2 ^ 32 :=
    Nat.mul_le_mul_right _ (by omega)
  calc v.version * 2 ^ 32 + v.value ≤ (2 ^ 32 - 1) * 2 ^ 32 + v.value := by omega
    _ < 2 ^ 64 := by norm_num; omega

theorem VersionedValue.pack_unpack (packed : Nat) (h : packed < 2 ^ 64) :
    (VersionedValue.unpack packed).pack = packed := by
  rw [unpack_eq]
  have hdiv : packed / 2 ^ 32 < 2 ^ 32 := by
    apply Nat.div_lt_of_lt_mul
    calc packed < 2 ^ 64 := h
      _ = 2 ^ 32 * 2 ^ 32 := by norm_num
  rw [pack_eq _ (Nat.mod_lt _ (by norm_num))]
  show packed / 2 ^ 32 % 2 ^ 32 * 2 ^ 32 + packed % 2 ^ 32 = packed
  rw [Nat.mod_eq_of_lt hdiv, Nat.mul_comm]
  exact Nat.div_add_mod packed (2 ^ 32)

theorem VersionedAtomicCounter.new_wf (v : Nat) (h : v < 2 ^ 32) :
    (VersionedAtomicCounter.new v).wf :=
  VersionedValue.pack_lt _ ⟨h, show (0 : Nat) < 2 ^ 32 by norm_num⟩

theorem VersionedAtomicCounter.load_wf (c : VersionedAtomicCounter) : c.load.wf :=
  VersionedValue.unpack_wf c.data

theorem VersionedAtomicCounter.load_new (v : Nat) (h : v < 2 ^ 32) :
    (VersionedAtomicCounter.new v).load = ⟨v, 0⟩ :=
  VersionedValue.unpack_pack _ ⟨h, show (0 : Nat) < 2 ^ 32 by norm_num⟩

theorem SpinLock.try_lock_spec (l : SpinLock) (sp : Bool) :
    l.try_lock sp = if l.locked = false ∧ sp = false then (true, ⟨true⟩) else (false, l) := by
  unfold try_lock AtomicBool.compare_exchange_weak
  by_cases h : l.locked = false ∧ sp = false
  · simp [h, Except.isOk, Except.toBool]
  · simp [h, Except.isOk, Except.toBool]

theorem sum_completed_update {n : Nat} (f : Fin n → Worker) (i : Fin n) (w' : Worker) (K : Nat) :
    (∑ t, Worker.completed K (Function.update f i w' t)) + Worker.completed K (f i) =
      (∑ t, Worker.completed K (f t)) + Worker.completed K w' := by
  have hfun : (fun t => Worker.completed K (Function.update f i w' t)) =
      Function.update (fun t => Worker.completed K (f t)) i (Worker.completed K w') := by
    funext t
    by_cases h : t = i
    · subst h; simp
    · simp [Function.update_noteq h]
  rw [hfun, Finset.sum_update_of_mem (Finset.mem_univ i),
    Finset.sum_eq_sum_diff_singleton_add (Finset.mem_univ i)
      (fun t => Worker.completed K (f t))]
  ring

theorem sysStep_eq_spinning {n : Nat} (s : SysState n) (i : Fin n) (go : Bool)
    (hph : (s.workers i).phase = WorkerPhase.spinning) :
    sysStep s (i, go) =
      if (s.workers i).rem = 0 then s
      else if s.lock.locked = false ∧ go = true then
        ⟨⟨true⟩, s.counter, Function.update s.workers i ⟨(s.workers i).rem, WorkerPhase.reading⟩⟩
      else s := by
  by_cases h0 : (s.workers i).rem = 0
  · simp [sysStep, hph, h0]
  · by_cases hacq : s.lock.locked = false ∧ go = true
    · simp [sysStep, hph, h0, SpinLock.try_lock_spec, hacq.1, hacq.2]
    · have hfail : ¬(s.lock.locked = false ∧ (!go) = false) := by
        intro hc
        exact hacq ⟨hc.1, by simpa using hc.2⟩
      simp [sysStep, hph, h0, SpinLock.try_lock_spec, hfail, hacq]

theorem sysStep_eq_reading {n : Nat} (s : SysState n) (i : Fin n) (go : Bool)
    (hph : (s.workers i).phase = WorkerPhase.reading) :
    sysStep s (i, go) =
      ⟨s.lock, s.counter,
        Function.update s.workers i ⟨(s.workers i).rem, WorkerPhase.writing s.counter⟩⟩ := by
  simp [sysStep, hph]

theorem sysStep_eq_writing {n : Nat} (s : SysState n) (i : Fin n) (go : Bool) (tmp : Nat)
    (hph : (s.workers i).phase = WorkerPhase.writing tmp) :
    sysStep s (i, go) =
      ⟨s.lock, tmp + 1,
        Function.update s.workers i ⟨(s.workers i).rem, WorkerPhase.releasing⟩⟩ := by
  simp [sysStep, hph]

theorem sysStep_eq_releasing {n : Nat} (s : SysState n) (i : Fin n) (go : Bool)
    (hph : (s.workers i).phase = WorkerPhase.releasing) :
    sysStep s (i, go) =
      ⟨⟨false⟩, s.counter,
        Function.update s.workers i ⟨(s.workers i).rem - 1, WorkerPhase.spinning⟩⟩ := by
  simp [sysStep, hph, SpinLock.unlock]

theorem sysInv_init (n K : Nat) : SysInv K (initState n K) := by
  refine ⟨fun _ t => rfl, ?_, ?_, fun t => Nat.le_refl K, ?_, ?_⟩
  · intro t u ht _
    exact absurd ht (by simp [initState, Worker.holdsLock])
  · simp [initState, Worker.completed]
  · intro t ht
    exact absurd ht (by simp [initState, Worker.holdsLock])
  · intro t tmp htm
    simp [initState] at htm

theorem sysInv_step {n K : Nat} (s : SysState n) (a : Fin n × Bool)
    (h : SysInv K s) : SysInv K (sysStep s a) := by
  obtain ⟨hlock, huniq, hsum, hrem, hpos, htmp⟩ := h
  obtain ⟨i, go⟩ := a
  have hheld : ∀ t, (s.workers t).holdsLock = true → s.lock.locked = true := by
    intro t ht
    cases hl : s.lock.locked with
    | false =>
      have h0 := hlock hl t
      rw [ht] at h0
      exact absurd h0 (by simp)
    | true => rfl
  cases hph : (s.workers i).phase with
  | spinning =>
    rw [sysStep_eq_spinning s i go hph]
    by_cases h0 : (s.workers i).rem = 0
    · rw [if_pos h0]
      exact ⟨hlock, huniq, hsum, hrem, hpos, htmp⟩
    · rw [if_neg h0]
      by_cases hacq : s.lock.locked = false ∧ go = true
      · rw [if_pos hacq]
        unfold SysInv
        dsimp only
        refine ⟨?_, ?_, ?_, ?_, ?_, ?_⟩
        · intro hf
          exact absurd hf (by simp)
        · intro t u ht hu
          have key : ∀ v, (Function.update s.workers i
              ⟨(s.workers i).rem, WorkerPhase.reading⟩ v).holdsLock = true → v = i := by
            intro v hv
            by_cases hvi : v = i
            · exact hvi
            · rw [Function.update_noteq hvi] at hv
              have hc := hlock hacq.1 v
              rw [hv] at hc
              exact absurd hc (by simp)
          rw [key t ht, key u hu]
        · show s.counter = ∑ t, Worker.completed K
            (Function.update s.workers i ⟨(s.workers i).rem, WorkerPhase.reading⟩ t)
          have hkey := sum_completed_update s.workers i
            ⟨(s.workers i).rem, WorkerPhase.reading⟩ K
          have hsame : Worker.completed K
              (⟨(s.workers i).rem, WorkerPhase.reading⟩ : Worker) =
              Worker.completed K (s.workers i) := by
            simp [Worker.completed, hph]
          rw [hsame] at hkey
          have h2 := Nat.add_right_cancel hkey
          rw [h2]
          exact hsum
        · intro t
          by_cases ht : t = i
          · subst ht
            rw [Function.update_same]
            exact hrem t
          · rw [Function.update_noteq ht]
            exact hrem t
        · intro t ht
          by_cases hti : t = i
          · subst hti
            rw [Function.update_same]
            exact Nat.one_le_iff_ne_zero.mpr h0
          · rw [Function.update_noteq hti] at ht
            have hc := hlock hacq.1 t
            rw [ht] at hc
            exact absurd hc (by simp)
        · intro t tmp htm
          by_cases hti : t = i
          · subst hti
            rw [Function.update_same] at htm
            exact absurd htm (by simp)
          · rw [Function.update_noteq hti] at htm
            have hho : (s.workers t).holdsLock = true := by
              unfold Worker.holdsLock
              rw [htm]
            have hc := hlock hacq.1 t
            rw [hho] at hc
            exact absurd hc (by simp)
      · rw [if_neg hacq]
        exact ⟨hlock, huniq, hsum, hrem, hpos, htmp⟩
  | reading =>
    rw [sysStep_eq_reading s i go hph]
    unfold SysInv
    dsimp only
    have hih : (s.workers i).holdsLock = true := by
      unfold Worker.holdsLock
      rw [hph]
    refine ⟨?_, ?_, ?_, ?_, ?_, ?_⟩
    · intro hf
      have hc := hheld i hih
      rw [hf] at hc
      exact absurd hc (by simp)
    · intro t u ht hu
      have key : ∀ v, (Function.update s.workers i
          ⟨(s.workers i).rem, WorkerPhase.writing s.counter⟩ v).holdsLock = true → v = i := by
        intro v hv
        by_cases hvi : v = i
        · exact hvi
        · rw [Function.update_noteq hvi] at hv
          exact huniq v i hv hih
      rw [key t ht, key u hu]
    · show s.counter = ∑ t, Worker.completed K
        (Function.update s.workers i ⟨(s.workers i).rem, WorkerPhase.writing s.counter⟩ t)
      have hkey := sum_completed_update s.workers i
        ⟨(s.workers i).rem, WorkerPhase.writing s.counter⟩ K
      have hsame : Worker.completed K
          (⟨(s.workers i).rem, WorkerPhase.writing s.counter⟩ : Worker) =
          Worker.completed K (s.workers i) := by
        simp [Worker.completed, hph]
      rw [hsame] at hkey
      have h2 := Nat.add_right_cancel hkey
      rw [h2]
      exact hsum
    · intro t
      by_cases ht : t = i
      · subst ht
        rw [Function.update_same]
        exact hrem t
      · rw [Function.update_noteq ht]
        exact hrem t
    · intro t ht
      by_cases hti : t = i
      · subst hti
        rw [Function.update_same]
        exact hpos t hih
      · rw [Function.update_noteq hti] at ht ⊢
        exact hpos t ht
    · intro t tmp htm
      by_cases hti : t = i
      · subst hti
        rw [Function.update_same] at htm
        cases htm
        rfl
      · rw [Function.update_noteq hti] at htm
        exact htmp t tmp htm
  | writing tmp =>
    rw [sysStep_eq_writing s i go tmp hph]
    unfold SysInv
    dsimp only
    have hih : (s.workers i).holdsLock = true := by
      unfold Worker.holdsLock
      rw [hph]
    have htc : tmp = s.counter := htmp i tmp hph
    refine ⟨?_, ?_, ?_, ?_, ?_, ?_⟩
    · intro hf
      have hc := hheld i hih
      rw [hf] at hc
      exact absurd hc (by simp)
    · intro t u ht hu
      have key : ∀ v, (Function.update s.workers i
          ⟨(s.workers i).rem, WorkerPhase.releasing⟩ v).holdsLock = true → v = i := by
        intro v hv
        by_cases hvi : v = i
        · exact hvi
        · rw [Function.update_noteq hvi] at hv
          exact huniq v i hv hih
      rw [key t ht, key u hu]
    · show tmp + 1 = ∑ t, Worker.completed K
        (Function.update s.workers i ⟨(s.workers i).rem, WorkerPhase.releasing⟩ t)
      have hkey := sum_completed_update s.workers i
        ⟨(s.workers i).rem, WorkerPhase.releasing⟩ K
      have hplus : Worker.completed K
          (⟨(s.workers i).rem, WorkerPhase.releasing⟩ : Worker) =
          Worker.completed K (s.workers i) + 1 := by
        simp [Worker.completed, hph]
      rw [hplus] at hkey
      have h2 : (∑ t, Worker.completed K
          (Function.update s.workers i ⟨(s.workers i).rem, WorkerPhase.releasing⟩ t)) =
          (∑ t, Worker.completed K (s.workers t)) + 1 := by
        omega
      rw [h2, ← hsum, htc]
    · intro t
      by_cases ht : t = i
      · subst ht
        rw [Function.update_same]
        exact hrem t
      · rw [Function.update_noteq ht]
        exact hrem t
    · intro t ht
      by_cases hti : t = i
      · subst hti
        rw [Function.update_same]
        exact hpos t hih
      · rw [Function.update_noteq hti] at ht ⊢
        exact hpos t ht
    · intro t tmp' htm
      by_cases hti : t = i
      · subst hti
        rw [Function.update_same] at htm
        exact absurd htm (by simp)
      · rw [Function.update_noteq hti] at htm
        have hho : (s.workers t).holdsLock = true := by
          unfold Worker.holdsLock
          rw [htm]
        exact absurd (huniq t i hho hih) hti
  | releasing =>
    rw [sysStep_eq_releasing s i go hph]
    unfold SysInv
    dsimp only
    have hih : (s.workers i).holdsLock = true := by
      unfold Worker.holdsLock
      rw [hph]
    have hnone : ∀ v, v ≠ i → (s.workers v).holdsLock = false := by
      intro v hvi
      cases hv : (s.workers v).holdsLock with
      | false => rfl
      | true => exact absurd (huniq v i hv hih) hvi
    refine ⟨?_, ?_, ?_, ?_, ?_, ?_⟩
    · intro _ t
      by_cases hti : t = i
      · subst hti
        rw [Function.update_same]
        rfl
      · rw [Function.update_noteq hti]
        exact hnone t hti
    · intro t u ht hu
      exfalso
      by_cases hti : t = i
      · subst hti
        rw [Function.update_same] at ht
        simp [Worker.holdsLock] at ht
      · rw [Function.update_noteq hti] at ht
        rw [hnone t hti] at ht
        exact absurd ht (by simp)
    · show s.counter = ∑ t, Worker.completed K
        (Function.update s.workers i ⟨(s.workers i).rem - 1, WorkerPhase.spinning⟩ t)
      have hkey := sum_completed_update s.workers i
        ⟨(s.workers i).rem - 1, WorkerPhase.spinning⟩ K
      have hr1 : 1 ≤ (s.workers i).rem := hpos i hih
      have hrK : (s.workers i).rem ≤ K := hrem i
      have hsame : Worker.completed K
          (⟨(s.workers i).rem - 1, WorkerPhase.spinning⟩ : Worker) =
          Worker.completed K (s.workers i) := by
        simp only [Worker.completed, hph]
        omega
      rw [hsame] at hkey
      have h2 := Nat.add_right_cancel hkey
      rw [h2]
      exact hsum
    · intro t
      by_cases ht : t = i
      · subst ht
        rw [Function.update_same]
        show (s.workers t).rem - 1 ≤ K
        have := hrem t
        omega
      · rw [Function.update_noteq ht]
        exact hrem t
    · intro t ht
      by_cases hti : t = i
      · subst hti
        rw [Function.update_same] at ht
        simp [Worker.holdsLock] at ht
      · rw [Function.update_noteq hti] at ht
        rw [hnone t hti] at ht
        exact absurd ht (by simp)
    · intro t tmp htm
      by_cases hti : t = i
      · subst hti
        rw [Function.update_same] at htm
        exact absurd htm (by simp)
      · rw [Function.update_noteq hti] at htm
        exact htmp t tmp htm

theorem sysInv_run {n K : Nat} (s : SysState n) (tr : List (Fin n × Bool))
    (h : SysInv K s) : SysInv K (sysRun s tr) := by
  induction tr generalizing s with
  | nil => exact h
  | cons a tl ih => exact ih _ (sysInv_step s a h)

theorem cas_succ_eq (c : VersionedAtomicCounter) (e d : VersionedValue)
    (h : c.data = e.pack) :
    c.compare_exchange_versioned e d = (Except.ok d, ⟨d.pack⟩) := by
  unfold VersionedAtomicCounter.compare_exchange_versioned
  rw [if_pos h]

theorem cas_fail_eq (c : VersionedAtomicCounter) (e d : VersionedValue)
    (h : ¬c.data = e.pack) :
    c.compare_exchange_versioned e d = (Except.error c.load, c) := by
  unfold VersionedAtomicCounter.compare_exchange_versioned
  rw [if_neg h]
  rfl

theorem load_eq_iff (c : VersionedAtomicCounter) (e : VersionedValue)
    (hc : c.wf) (he : e.wf) : c.load = e ↔ c.data = e.pack := by
  constructor
  · intro h
    rw [← VersionedValue.pack_unpack c.data hc]
    show (c.load).pack = e.pack
    rw [h]
  · intro h
    show VersionedValue.unpack c.data = e
    rw [h]
    exact VersionedValue.unpack_pack e he

theorem execOps_version (ops : List CounterOp) :
    ∀ c : VersionedAtomicCounter, c.wf →
      (∀ op ∈ ops, op.wf ∧ op.versionDisciplined) →
      c.load.version + ops.length < 2 ^ 32 →
      (execOps c ops).wf ∧
      (execOps c ops).load.version = c.load.version + mutCount c ops := by
  induction ops with
  | nil =>
    intro c hc _ _
    exact ⟨hc, by simp [execOps, mutCount]⟩
  | cons op tl ih =>
    intro c hc hops hlen
    have hop := hops op (List.mem_cons_self op tl)
    have htl : ∀ o ∈ tl, o.wf ∧ o.versionDisciplined :=
      fun o ho => hops o (List.mem_cons_of_mem op ho)
    have hlen' : c.load.version + tl.length + 1 < 2 ^ 32 := by
      simpa [Nat.add_assoc] using hlen
    cases op with
    | storeOp v =>
      have hv : v < 2 ^ 32 := hop.1
      have hverlt : c.load.version + 1 < 2 ^ 32 := by omega
      have hmod : (c.load.version + 1) % 2 ^ 32 = c.load.version + 1 :=
        Nat.mod_eq_of_lt hverlt
      have happly : (CounterOp.storeOp v).apply c =
          ⟨(VersionedValue.mk v ((c.load.version + 1) % 2 ^ 32)).pack⟩ := rfl
      have hwfv : (VersionedValue.mk v ((c.load.version + 1) % 2 ^ 32)).wf := by
        refine ⟨hv, ?_⟩
        show (c.load.version + 1) % 2 ^ 32 < 2 ^ 32
        rw [hmod]
        exact hverlt
      have hwf2 : ((CounterOp.storeOp v).apply c).wf := by
        rw [happly]
        exact VersionedValue.pack_lt _ hwfv
      have hload2 : ((CounterOp.storeOp v).apply c).load = ⟨v, c.load.version + 1⟩ := by
        rw [happly]
        show VersionedValue.unpack (VersionedValue.mk v ((c.load.version + 1) % 2 ^ 32)).pack = _
        rw [VersionedValue.unpack_pack _ hwfv, hmod]
      have hlen2 : ((CounterOp.storeOp v).apply c).load.version + tl.length < 2 ^ 32 := by
        rw [hload2]
        show c.load.version + 1 + tl.length < 2 ^ 32
        omega
      obtain ⟨hwf3, hver3⟩ := ih _ hwf2 htl hlen2
      refine ⟨hwf3, ?_⟩
      show (execOps ((CounterOp.storeOp v).apply c) tl).load.version =
        c.load.version + mutCount c (CounterOp.storeOp v :: tl)
      rw [hver3, hload2]
      show c.load.version + 1 + mutCount ((CounterOp.storeOp v).apply c) tl =
        c.load.version + (1 + mutCount ((CounterOp.storeOp v).apply c) tl)
      omega
    | casOp e d =>
      have hew : e.wf := hop.1.1
      have hdw : d.wf := hop.1.2
      have hdisc : d.version = e.version + 1 := hop.2
      by_cases hsucc : c.data = e.pack
      · have happly : (CounterOp.casOp e d).apply c = ⟨d.pack⟩ := by
          show (c.compare_exchange_versioned e d).2 = _
          rw [cas_succ_eq c e d hsucc]
        have hwf2 : ((CounterOp.casOp e d).apply c).wf := by
          rw [happly]
          exact VersionedValue.pack_lt d hdw
        have hload2 : ((CounterOp.casOp e d).apply c).load = d := by
          rw [happly]
          exact VersionedValue.unpack_pack d hdw
        have hcurver : c.load.version = e.version := by
          have hle : c.load = e := (load_eq_iff c e hc hew).mpr hsucc
          rw [hle]
        have hlen2 : ((CounterOp.casOp e d).apply c).load.version + tl.length < 2 ^ 32 := by
          rw [hload2, hdisc, ← hcurver]
          omega
        obtain ⟨hwf3, hver3⟩ := ih _ hwf2 htl hlen2
        refine ⟨hwf3, ?_⟩
        show (execOps ((CounterOp.casOp e d).apply c) tl).load.version =
          c.load.version + mutCount c (CounterOp.casOp e d :: tl)
        rw [hver3, hload2, hdisc, ← hcurver]
        have hst : (CounterOp.casOp e d).succeeds c = true := by
          show (c.compare_exchange_versioned e d).1.isOk = true
          rw [cas_succ_eq c e d hsucc]
          rfl
        have hmc : mutCount c (CounterOp.casOp e d :: tl) =
            1 + mutCount ((CounterOp.casOp e d).apply c) tl := by
          show (if (CounterOp.casOp e d).succeeds c then 1 else 0) +
            mutCount ((CounterOp.casOp e d).apply c) tl = _
          rw [hst]
          simp
        rw [hmc]
        omega
      · have happly : (CounterOp.casOp e d).apply c = c := by
          show (c.compare_exchange_versioned e d).2 = c
          rw [cas_fail_eq c e d hsucc]
        have hwf2 : ((CounterOp.casOp e d).apply c).wf := by
          rw [happly]
          exact hc
        have hlen2 : ((CounterOp.casOp e d).apply c).load.version + tl.length < 2 ^ 32 := by
          rw [happly]
          omega
        obtain ⟨hwf3, hver3⟩ := ih _ hwf2 htl hlen2
        refine ⟨hwf3, ?_⟩
        show (execOps ((CounterOp.casOp e d).apply c) tl).load.version =
          c.load.version + mutCount c (CounterOp.casOp e d :: tl)
        have hsf : (CounterOp.casOp e d).succeeds c = false := by
          show (c.compare_exchange_versioned e d).1.isOk = false
          rw [cas_fail_eq c e d hsucc]
          rfl
        have hmc : mutCount c (CounterOp.casOp e d :: tl) =
            mutCount ((CounterOp.casOp e d).apply c) tl := by
          show (if (CounterOp.casOp e d).succeeds c then 1 else 0) +
            mutCount ((CounterOp.casOp e d).apply c) tl = _
          rw [hsf]
          simp
        rw [hver3, hmc, happly]

theorem mutCount_append (l1 l2 : List CounterOp) :
    ∀ c : VersionedAtomicCounter,
      mutCount c (l1 ++ l2) = mutCount c l1 + mutCount (execOps c l1) l2 := by
  induction l1 with
  | nil =>
    intro c
    simp [mutCount, execOps]
  | cons op tl ih =>
    intro c
    show (if op.succeeds c then 1 else 0) + mutCount (op.apply c) (tl ++ l2) =
      ((if op.succeeds c then 1 else 0) + mutCount (op.apply c) tl) +
        mutCount (execOps (op.apply c) tl) l2
    rw [ih (op.apply c)]
    omega

theorem store_load (c : VersionedAtomicCounter) (v : Nat) (hv : v < 2 ^ 32)
    (hver : c.load.version + 1 < 2 ^ 32) :
    (c.store v).1 = ⟨v, c.load.version + 1⟩ ∧
    ((c.store v).2).load = ⟨v, c.load.version + 1⟩ ∧
    ((c.store v).2).wf := by
  have hmod : (c.load.version + 1) % 2 ^ 32 = c.load.version + 1 := Nat.mod_eq_of_lt hver
  have hwfv : (VersionedValue.new v ((c.load.version + 1) % 2 ^ 32)).wf := by
    refine ⟨hv, ?_⟩
    show (c.load.version + 1) % 2 ^ 32 < 2 ^ 32
    rw [hmod]
    exact hver
  refine ⟨?_, ?_, ?_⟩
  · show VersionedValue.new v ((c.load.version + 1) % 2 ^ 32) = ⟨v, c.load.version + 1⟩
    rw [VersionedValue.new, hmod]
  · show VersionedValue.unpack (VersionedValue.new v ((c.load.version + 1) % 2 ^ 32)).pack =
      ⟨v, c.load.version + 1⟩
    rw [VersionedValue.unpack_pack _ hwfv, VersionedValue.new, hmod]
  · exact VersionedValue.pack_lt _ hwfv

/-! ## Claim theorems -/

/-- C4: for every pair of 32-bit unsigned integers `(value, version)`,
`unpack (pack (value, version)) = (value, version)`; `pack` produces a
single 64-bit word with the version in the high 32 bits and the value in
the low 32 bits (`pack = version * 2 ^ 32 + value`); and `pack` is
injective on in-range pairs. -/
theorem pack_unpack_roundtrip (value version : Nat)
    (hval : value < 2 ^ 32) (hver : version < 2 ^ 32) :
    VersionedValue.unpack (VersionedValue.mk value version).pack =
      VersionedValue.mk value version ∧
    (VersionedValue.mk value version).pack = version * 2 ^ 32 + value ∧
    ∀ value2 version2 : Nat, value2 < 2 ^ 32 → version2 < 2 ^ 32 →
      (VersionedValue.mk value version).pack = (VersionedValue.mk value2 version2).pack →
      value = value2 ∧ version = version2 := by
  refine ⟨VersionedValue.unpack_pack _ ⟨hval, hver⟩, VersionedValue.pack_eq _ hval, ?_⟩
  intro value2 version2 hv2 hver2 heq
  have h1 : VersionedValue.mk value version = VersionedValue.mk value2 version2 := by
    rw [← VersionedValue.unpack_pack (VersionedValue.mk value version) ⟨hval, hver⟩, heq,
      VersionedValue.unpack_pack _ ⟨hv2, hver2⟩]
  injection h1 with h2 h3
  exact ⟨h2, h3⟩

/-- C4 witness, at the unit test's pair `(42, 5)`. -/
theorem pack_unpack_roundtrip_witness :
    (42 : Nat) < 2 ^ 32 ∧ (5 : Nat) < 2 ^ 32 ∧
    VersionedValue.unpack (VersionedValue.mk 42 5).pack = VersionedValue.mk 42 5 :=
  ⟨by norm_num, by norm_num, (pack_unpack_roundtrip 42 5 (by norm_num) (by norm_num)).1⟩

/-- C2: `compare_exchange_versioned(expected, desired)` succeeds iff the
cell's current pair equals `expected`; on success it returns
`Ok(desired)` and the cell's pair becomes `desired`; on failure it
returns `Err` of the actual current pair and the cell is unchanged; and a
CAS whose `expected` comes from a `load` of the unchanged cell succeeds. -/
theorem cas_success_iff (c : VersionedAtomicCounter) (expected desired : VersionedValue)
    (hc : c.wf) (he : expected.wf) (hd : desired.wf) :
    ((c.compare_exchange_versioned expected desired).1.isOk = true ↔ c.load = expected) ∧
    (c.load = expected →
      (c.compare_exchange_versioned expected desired).1 = Except.ok desired ∧
      ((c.compare_exchange_versioned expected desired).2).load = desired) ∧
    (c.load ≠ expected →
      (c.compare_exchange_versioned expected desired).1 = Except.error c.load ∧
      (c.compare_exchange_versioned expected desired).2 = c) ∧
    (c.compare_exchange_versioned c.load desired).1.isOk = true := by
  have hiff := load_eq_iff c expected hc he
  refine ⟨⟨?_, ?_⟩, ?_, ?_, ?_⟩
  · intro hok
    by_cases hdata : c.data = expected.pack
    · exact hiff.mpr hdata
    · rw [cas_fail_eq c expected desired hdata] at hok
      exact absurd hok (by simp [Except.isOk, Except.toBool])
  · intro hl
    rw [cas_succ_eq c expected desired (hiff.mp hl)]
    rfl
  · intro hl
    rw [cas_succ_eq c expected desired (hiff.mp hl)]
    exact ⟨rfl, VersionedValue.unpack_pack desired hd⟩
  · intro hl
    have hdata : ¬c.data = expected.pack := fun hx => hl (hiff.mpr hx)
    rw [cas_fail_eq c expected desired hdata]
    exact ⟨rfl, rfl⟩
  · have hself : c.data = (c.load).pack := (VersionedValue.pack_unpack c.data hc).symm
    rw [cas_succ_eq c c.load desired hself]
    rfl

/-- C2 witness: the load-based CAS on a fresh cell succeeds. -/
theorem cas_success_iff_witness :
    (VersionedAtomicCounter.new 10).wf ∧
    (VersionedValue.mk 10 0).wf ∧ (VersionedValue.mk 20 1).wf ∧
    ((VersionedAtomicCounter.new 10).compare_exchange_versioned
      (VersionedAtomicCounter.new 10).load (VersionedValue.mk 20 1)).1.isOk = true :=
  ⟨by decide, by decide, by decide,
    (cas_success_iff (VersionedAtomicCounter.new 10) (VersionedValue.mk 10 0)
      (VersionedValue.mk 20 1) (by decide) (by decide) (by decide)).2.2.2⟩

/-- C5: on a cell whose current pair is `(v, n)` with `n < 2 ^ 32 - 1`,
`store w` returns `(w, n + 1)` and a subsequent `load` returns
`(w, n + 1)`: the version is incremented by exactly 1 relative to the
version read at the start of the call. -/
theorem store_read_then_write (c : VersionedAtomicCounter) (v n w : Nat)
    (hload : c.load = ⟨v, n⟩) (hn : n < 2 ^ 32 - 1) (hw : w < 2 ^ 32) :
    (c.store w).1 = ⟨w, n + 1⟩ ∧ ((c.store w).2).load = ⟨w, n + 1⟩ := by
  have hver : c.load.version + 1 < 2 ^ 32 := by
    rw [hload]
    show n + 1 < 2 ^ 32
    omega
  have h := store_load c w hw hver
  rw [hload] at h
  exact ⟨h.1, h.2.1⟩

/-- C5 witness, matching the unit test: a fresh cell holding `(10, 0)`,
then `store 20` yields `(20, 1)`. -/
theorem store_read_then_write_witness :
    (VersionedAtomicCounter.new 10).load = ⟨10, 0⟩ ∧
    (0 : Nat) < 2 ^ 32 - 1 ∧ (20 : Nat) < 2 ^ 32 ∧
    ((VersionedAtomicCounter.new 10).store 20).1 = ⟨20, 1⟩ ∧
    (((VersionedAtomicCounter.new 10).store 20).2).load = ⟨20, 1⟩ := by
  refine ⟨by decide, by decide, by decide, ?_⟩
  exact store_read_then_write (VersionedAtomicCounter.new 10) 10 0 20
    (by decide) (by decide) (by decide)

/-- C6: whenever `compare_exchange_versioned` fails, the returned actual
pair differs from `expected`: the failure outcome "same value, same
version" is unreachable, because the strong CAS fails only when the
packed words differ and packing is injective. -/
theorem cas_failure_differs (c : VersionedAtomicCounter)
    (expected desired actual : VersionedValue) (hc : c.wf) (he : expected.wf)
    (hfail : (c.compare_exchange_versioned expected desired).1 = Except.error actual) :
    actual ≠ expected := by
  by_cases hdata : c.data = expected.pack
  · rw [cas_succ_eq c expected desired hdata] at hfail
    exact absurd hfail (by simp)
  · rw [cas_fail_eq c expected desired hdata] at hfail
    have hact : actual = c.load := by
      injection hfail with h1
      exact h1.symm
    intro heq
    apply hdata
    rw [← VersionedValue.pack_unpack c.data hc]
    show (c.load).pack = expected.pack
    rw [← hact, heq]

/-- C6 witness: a failing CAS whose actual pair differs from expected. -/
theorem cas_failure_differs_witness :
    (VersionedAtomicCounter.new 5).wf ∧ (VersionedValue.mk 6 0).wf ∧
    ((VersionedAtomicCounter.new 5).compare_exchange_versioned
      (VersionedValue.mk 6 0) (VersionedValue.mk 7 1)).1 =
        Except.error (VersionedValue.mk 5 0) ∧
    VersionedValue.mk 5 0 ≠ VersionedValue.mk 6 0 :=
  ⟨by decide, by decide, by decide,
    cas_failure_differs (VersionedAtomicCounter.new 5) (VersionedValue.mk 6 0)
      (VersionedValue.mk 7 1) (VersionedValue.mk 5 0) (by decide) (by decide) (by decide)⟩

/-- C9: `unlock` is total and idempotent: it unconditionally stores
`false` with no check of the caller, so unlocking an already-unlocked
lock leaves it unlocked, and `unlock` twice equals `unlock` once. -/
theorem unlock_total_idempotent (l : SpinLock) :
    l.unlock = ⟨false⟩ ∧ (SpinLock.mk false).unlock = ⟨false⟩ ∧
    l.unlock.unlock = l.unlock :=
  ⟨rfl, rfl, rfl⟩

/-- C10: the version increment in `store` is unchecked `u32` arithmetic:
at current version `2 ^ 32 - 1` it wraps the stored version to 0
(release-build behaviour of the overflowing `current.version + 1`; debug
builds panic instead), so the version is monotonic only under the
precondition that the current version is strictly below `2 ^ 32 - 1`. -/
theorem store_version_overflow (c : VersionedAtomicCounter) (w : Nat) :
    (c.load.version = 2 ^ 32 - 1 → (c.store w).1.version = 0) ∧
    (c.load.version < 2 ^ 32 - 1 → (c.store w).1.version = c.load.version + 1) := by
  constructor
  · intro hmax
    show (c.load.version + 1) % 2 ^ 32 = 0
    rw [hmax]
    norm_num
  · intro hlt
    show (c.load.version + 1) % 2 ^ 32 = c.load.version + 1
    apply Nat.mod_eq_of_lt
    omega

/-- C10 witness: a cell at the maximal version wraps to version 0. -/
theorem store_version_overflow_witness :
    (VersionedAtomicCounter.mk (VersionedValue.mk 5 (2 ^ 32 - 1)).pack).load.version =
      2 ^ 32 - 1 ∧
    ((VersionedAtomicCounter.mk (VersionedValue.mk 5 (2 ^ 32 - 1)).pack).store 7).1.version =
      0 :=
  ⟨by decide,
    (store_version_overflow (VersionedAtomicCounter.mk
      (VersionedValue.mk 5 (2 ^ 32 - 1)).pack) 7).1 (by decide)⟩

/-- C3: ABA rejection: on a cell freshly constructed as `new V0`
(holding `(V0, 0)`, the pair first observed by `load`), after
`store V1` then `store V0` a `compare_exchange_versioned` using the first
observed pair as `expected` fails, and the returned actual pair has the
same value `V0` and a version at least 2 greater than first observed. -/
theorem aba_rejection (v0 v1 : Nat) (d : VersionedValue)
    (h0 : v0 < 2 ^ 32) (h1 : v1 < 2 ^ 32) :
    ((((VersionedAtomicCounter.new v0).store v1).2.store v0).2.compare_exchange_versioned
        (VersionedAtomicCounter.new v0).load d).1 =
      Except.error (VersionedValue.mk v0 2) ∧
    (VersionedValue.mk v0 2).value = ((VersionedAtomicCounter.new v0).load).value ∧
    ((VersionedAtomicCounter.new v0).load).version + 2 ≤ (VersionedValue.mk v0 2).version := by
  have hload0 : (VersionedAtomicCounter.new v0).load = ⟨v0, 0⟩ :=
    VersionedAtomicCounter.load_new v0 h0
  have hver0 : (VersionedAtomicCounter.new v0).load.version + 1 < 2 ^ 32 := by
    rw [hload0]
    show 0 + 1 < 2 ^ 32
    norm_num
  have hs1 := store_load (VersionedAtomicCounter.new v0) v1 h1 hver0
  have hload1 : (((VersionedAtomicCounter.new v0).store v1).2).load = ⟨v1, 1⟩ := by
    rw [hs1.2.1, hload0]
  have hver1 : (((VersionedAtomicCounter.new v0).store v1).2).load.version + 1 < 2 ^ 32 := by
    rw [hload1]
    show 1 + 1 < 2 ^ 32
    norm_num
  have hs2 := store_load (((VersionedAtomicCounter.new v0).store v1).2) v0 h0 hver1
  have hload2 : ((((VersionedAtomicCounter.new v0).store v1).2.store v0).2).load =
      ⟨v0, 2⟩ := by
    rw [hs2.2.1, hload1]
  have hwf2 : ((((VersionedAtomicCounter.new v0).store v1).2.store v0).2).wf := hs2.2.2
  have hne : ¬(((VersionedAtomicCounter.new v0).store v1).2.store v0).2.data =
      ((VersionedAtomicCounter.new v0).load).pack := by
    intro hx
    have hcur : ((((VersionedAtomicCounter.new v0).store v1).2.store v0).2).load =
        (VersionedAtomicCounter.new v0).load := by
      show VersionedValue.unpack _ = _
      rw [hx]
      exact VersionedValue.unpack_pack _ (by rw [hload0]; exact ⟨h0, by norm_num⟩)
    rw [hload2, hload0] at hcur
    injection hcur with hv hver
    exact absurd hver (by norm_num)
  rw [cas_fail_eq _ _ d hne, hload0, hload2]
  refine ⟨rfl, rfl, ?_⟩
  show 0 + 2 ≤ 2
  norm_num

/-- C3 witness at `V0 = 0`, `V1 = 1`, desired `(100, 1)` (the demo's
thread-2 attempt). -/
theorem aba_rejection_witness :
    (0 : Nat) < 2 ^ 32 ∧ (1 : Nat) < 2 ^ 32 ∧
    ((((VersionedAtomicCounter.new 0).store 1).2.store 0).2.compare_exchange_versioned
        (VersionedAtomicCounter.new 0).load (VersionedValue.mk 100 1)).1 =
      Except.error (VersionedValue.mk 0 2) :=
  ⟨by norm_num, by norm_num,
    (aba_rejection 0 1 (VersionedValue.mk 100 1) (by norm_num) (by norm_num)).1⟩

/-- C7 as stated is violated when the single weak CAS fails spuriously:
on an unlocked lock, `try_lock` then returns `false` instead of `true`
(the flag stays unchanged). -/
theorem try_lock_unlocked_cex :
    (SpinLock.mk false).locked = false ∧
    ((SpinLock.mk false).try_lock true).1 = false ∧
    ((SpinLock.mk false).try_lock true).2 = SpinLock.mk false := by
  decide

/-- C7 (amended): `try_lock` never blocks and makes a single weak-CAS
attempt: on a lock whose flag is `true` it returns `false` and leaves the
flag unchanged; on a lock whose flag is `false` it returns `true` and
sets the flag, unless the weak compare-exchange fails spuriously, in
which case it returns `false` and leaves the flag `false`. -/
theorem try_lock_single_attempt (l : SpinLock) (spurious : Bool) :
    l.try_lock spurious =
      ((!l.locked && !spurious),
        if !l.locked && !spurious then ⟨true⟩ else l) := by
  obtain ⟨b⟩ := l
  cases b <;> cases spurious <;> decide

/-- C1 as stated is violated: a successful `compare_exchange_versioned`
installs the caller-chosen desired version, so with arbitrary
caller-chosen arguments a successful mutation need not increase the
version at all; here it leaves the version unchanged at 0. -/
theorem version_step_cex :
    ((VersionedAtomicCounter.new 5).compare_exchange_versioned
      (VersionedValue.mk 5 0) (VersionedValue.mk 7 0)).1 =
        Except.ok (VersionedValue.mk 7 0) ∧
    (((VersionedAtomicCounter.new 5).compare_exchange_versioned
      (VersionedValue.mk 5 0) (VersionedValue.mk 7 0)).2).load.version =
      (VersionedAtomicCounter.new 5).load.version := by
  decide

/-- C1 (amended): for every sequence of `store` and
`compare_exchange_versioned` calls on one cell in which every CAS is
called with `desired.version = expected.version + 1` (the discipline the
demonstration code follows) and fewer than `2 ^ 32` operations are
performed (no version overflow), the version equals the number of
successful mutations executed so far — it increases by exactly 1 on each
successful mutation and never decreases. -/
theorem version_monotonic_disciplined (v0 : Nat) (ops : List CounterOp)
    (hv0 : v0 < 2 ^ 32)
    (hops : ∀ op ∈ ops, op.wf ∧ op.versionDisciplined)
    (hlen : ops.length < 2 ^ 32) :
    (∀ i, (execOps (VersionedAtomicCounter.new v0) (ops.take i)).load.version =
        mutCount (VersionedAtomicCounter.new v0) (ops.take i)) ∧
    (∀ i j, i ≤ j →
      (execOps (VersionedAtomicCounter.new v0) (ops.take i)).load.version ≤
        (execOps (VersionedAtomicCounter.new v0) (ops.take j)).load.version) := by
  have hver0 : (VersionedAtomicCounter.new v0).load.version = 0 := by
    rw [VersionedAtomicCounter.load_new v0 hv0]
  have key : ∀ l : List CounterOp, (∀ op ∈ l, op.wf ∧ op.versionDisciplined) →
      l.length < 2 ^ 32 →
      (execOps (VersionedAtomicCounter.new v0) l).load.version =
        mutCount (VersionedAtomicCounter.new v0) l := by
    intro l hl hlen2
    have h := execOps_version l (VersionedAtomicCounter.new v0)
      (VersionedAtomicCounter.new_wf v0 hv0) hl (by rw [hver0]; omega)
    rw [h.2, hver0, Nat.zero_add]
  have htake : ∀ i, ∀ op ∈ ops.take i, op.wf ∧ op.versionDisciplined :=
    fun i op hop => hops op (List.take_subset i ops hop)
  have hlentake : ∀ i, (ops.take i).length < 2 ^ 32 := by
    intro i
    rw [List.length_take]
    omega
  refine ⟨fun i => key _ (htake i) (hlentake i), ?_⟩
  intro i j hij
  rw [key _ (htake i) (hlentake i), key _ (htake j) (hlentake j)]
  have h1 : (ops.take j).take i = ops.take i := by
    rw [List.take_take, Nat.min_eq_left hij]
  have h2 := (List.take_append_drop i (ops.take j)).symm
  rw [h1] at h2
  rw [h2, mutCount_append]
  omega

/-- C1 witness: a disciplined two-operation trace on a fresh cell. -/
theorem version_monotonic_disciplined_witness :
    (0 : Nat) < 2 ^ 32 ∧
    (∀ op ∈ [CounterOp.storeOp 1,
        CounterOp.casOp (VersionedValue.mk 1 1) (VersionedValue.mk 2 2)],
      op.wf ∧ op.versionDisciplined) ∧
    ([CounterOp.storeOp 1,
        CounterOp.casOp (VersionedValue.mk 1 1) (VersionedValue.mk 2 2)] :
      List CounterOp).length < 2 ^ 32 ∧
    (∀ i, (execOps (VersionedAtomicCounter.new 0)
        (([CounterOp.storeOp 1,
           CounterOp.casOp (VersionedValue.mk 1 1) (VersionedValue.mk 2 2)] :
          List CounterOp).take i)).load.version =
      mutCount (VersionedAtomicCounter.new 0)
        (([CounterOp.storeOp 1,
           CounterOp.casOp (VersionedValue.mk 1 1) (VersionedValue.mk 2 2)] :
          List CounterOp).take i)) :=
  ⟨by norm_num, by decide, by decide,
    (version_monotonic_disciplined 0
      [CounterOp.storeOp 1,
       CounterOp.casOp (VersionedValue.mk 1 1) (VersionedValue.mk 2 2)]
      (by norm_num) (by decide) (by decide)).1⟩

/-- C8: for every interleaved execution in which each of `n` workers
acquires the spinlock, increments the shared non-atomic counter (read
then write), and releases, `K` times (a schedule that ends with all
workers finished), the final counter equals `n * K`, and at every instant
at most one worker holds the lock. -/
theorem spinlock_mutex_and_count (n K : Nat) (tr : List (Fin n × Bool))
    (hdone : ∀ t, (sysRun (initState n K) tr).workers t = ⟨0, WorkerPhase.spinning⟩) :
    (sysRun (initState n K) tr).counter = n * K ∧
    ∀ (i : Nat) (t u : Fin n),
      ((sysRun (initState n K) (tr.take i)).workers t).holdsLock = true →
      ((sysRun (initState n K) (tr.take i)).workers u).holdsLock = true → t = u := by
  constructor
  · have hinv := sysInv_run (initState n K) tr (sysInv_init n K)
    have hsum := hinv.2.2.1
    rw [hsum]
    have hall : ∀ t, Worker.completed K ((sysRun (initState n K) tr).workers t) = K := by
      intro t
      rw [hdone t]
      simp [Worker.completed]
    calc (∑ t, Worker.completed K ((sysRun (initState n K) tr).workers t))
        = ∑ _t : Fin n, K := Finset.sum_congr rfl (fun t _ => hall t)
      _ = n * K := by
          rw [Finset.sum_const, Finset.card_univ, Fintype.card_fin, smul_eq_mul]
  · intro i t u ht hu
    have hinv := sysInv_run (initState n K) (tr.take i) (sysInv_init n K)
    exact hinv.2.1 t u ht hu

/-- C8 witness: two workers, one iteration each, run to completion on a
concrete schedule; the final counter is `2 * 1`. -/
theorem spinlock_mutex_and_count_witness :
    (∀ t, (sysRun (initState 2 1)
        [((0 : Fin 2), true), ((0 : Fin 2), true), ((0 : Fin 2), true), ((0 : Fin 2), true),
         ((1 : Fin 2), true), ((1 : Fin 2), true), ((1 : Fin 2), true), ((1 : Fin 2), true)]).workers t =
      ⟨0, WorkerPhase.spinning⟩) ∧
    (sysRun (initState 2 1)
        [((0 : Fin 2), true), ((0 : Fin 2), true), ((0 : Fin 2), true), ((0 : Fin 2), true),
         ((1 : Fin 2), true), ((1 : Fin 2), true), ((1 : Fin 2), true), ((1 : Fin 2), true)]).counter =
      2 * 1 :=
  ⟨by decide,
    (spinlock_mutex_and_count 2 1
      [((0 : Fin 2), true), ((0 : Fin 2), true), ((0 : Fin 2), true), ((0 : Fin 2), true),
       ((1 : Fin 2), true), ((1 : Fin 2), true), ((1 : Fin 2), true), ((1 : Fin 2), true)]
      (by decide)).1⟩
